import Mathlib

/-!
# protoc-gen-tart: import resolution and the generated client contract

A shallow embedding of `protoc-gen-tart/main.go` (the generator: `main`,
`generateFile`, `lowerFirstLetter`) and of the Dart client code carried by
`twirpTemplate` (client constructors, client methods, `createRequest`),
followed by the properties established about them.

Conventions.
* A string is a list of characters (`Str`).  `lowerFirstLetter` indexes a byte
  of a Go string, so it is modelled on byte sequences (`List Nat`).
* A Go `map[string]string` and a Dart `Map<String, String>` are association
  lists with at most one entry per key; the comparison of keys is an argument
  (`mapGet`, `mapSet`).
* Library code outside the repository is an argument of the functions that call
  it (`Env`); `unixEnv` is the instance used to evaluate concrete inputs.
-/

namespace Tart

/-- A string as a sequence of characters. -/
abbrev Str := List Char

/-! ## Association maps -/

section Maps

variable {α β : Type}

/-- Lookup `m[k]`: the value of the first entry whose key compares equal to `k`. -/
def mapGet (keq : α → α → Bool) (k : α) : List (α × β) → Option β
  | [] => none
  | (k', v) :: rest => if keq k' k then some v else mapGet keq k rest

/-- Assignment `m[k] = v`: the entry for `k` gets value `v` when there is one,
otherwise a new entry is added after the existing ones. -/
def mapSet (keq : α → α → Bool) (k : α) (v : β) : List (α × β) → List (α × β)
  | [] => [(k, v)]
  | (k', v') :: rest =>
    if keq k' k then (k', v) :: rest else (k', v') :: mapSet keq k v rest

/-- Dart `m.addAll(other)`: every entry of `other` is assigned, in iteration order. -/
def mapAddAll (keq : α → α → Bool) (m other : List (α × β)) : List (α × β) :=
  other.foldl (fun acc kv => mapSet keq kv.1 kv.2 acc) m

/-- The comparison of keys is an equivalence. -/
structure KeyEquiv (keq : α → α → Bool) : Prop where
  refl : ∀ a, keq a a = true
  symm : ∀ a b, keq a b = true → keq b a = true
  trans : ∀ a b c, keq a b = true → keq b c = true → keq a c = true

end Maps

/-- The comparison of header names by the `headers` map of an `http.Request`
(`package:http`, outside the repository): two names are the same when they agree
once lower-cased.  Header names are ASCII. -/
def ciEq (a b : Str) : Bool := decide (a.map Char.toLower = b.map Char.toLower)

/-- Equality of strings, the key comparison of a Go `map[string]string`. -/
def strEq (a b : Str) : Bool := decide (a = b)

/-- A Go `map[string]string`. -/
abbrev GoMap := List (Str × Str)

/-- Go `v, ok := m[k]`. -/
def GoMap.get (m : GoMap) (k : Str) : Option Str := mapGet strEq k m

/-- Go `m[k] = v`. -/
def GoMap.set (m : GoMap) (k v : Str) : GoMap := mapSet strEq k v m

/-- Go `m[k]` as an expression: the zero value `""` when the key is absent. -/
def GoMap.index (m : GoMap) (k : Str) : Str := (m.get k).getD []

/-! ## Go `strings` helpers used by the generator -/

/-- `strings.TrimSuffix(s, suffix)`. -/
def trimSuffix (s suffix : Str) : Str :=
  if suffix.isSuffixOf s then s.take (s.length - suffix.length) else s

/-- Worker of `replaceAll`: `skip` characters of a match are still to be dropped. -/
def replaceAllAux (old new : Str) : Nat → Str → Str
  | _, [] => []
  | skip + 1, _ :: cs => replaceAllAux old new skip cs
  | 0, c :: cs =>
    if old.isPrefixOf (c :: cs) then new ++ replaceAllAux old new (old.length - 1) cs
    else c :: replaceAllAux old new 0 cs

/-- `strings.ReplaceAll(s, old, new)` for a non-empty `old`: every non-overlapping
occurrence of `old`, found left to right, is replaced by `new`. -/
def replaceAll (s old new : Str) : Str := replaceAllAux old new 0 s

/-- The last element of `strings.Split(s, "/")`. -/
def lastSegment (s : Str) : Str := (s.reverse.takeWhile (fun c => c != '/')).reverse

/-- `fmt.Sprintf("$%v", n)` for an `int` that is not negative. -/
def sprintfAlias (n : Nat) : Str := '$' :: Nat.toDigits 10 n

/-! ## Descriptors (`protogen`) -/

/-- One entry of `file.Desc.Imports()`: the path and the package of the imported file. -/
structure Import where
  path : Str
  package : Str
deriving DecidableEq, Repr

/-- The fields of a `protogen.Method` the generator reads. -/
structure Method where
  goName : Str
  inputName : Str
  outputName : Str
  comment : Str
deriving DecidableEq, Repr

/-- The fields of a `protogen.Service` the generator reads. -/
structure Service where
  goName : Str
  comment : Str
  methods : List Method
deriving DecidableEq, Repr

/-- The fields of a `protogen.File` the generator reads. -/
structure File where
  generate : Bool
  generatedFilenamePrefix : Str
  protoName : Str
  descPath : Str
  package : Str
  imports : List Import
  services : List Service
deriving DecidableEq, Repr

/-- The Go struct `twirpFileData`. -/
structure TwirpFileData where
  generatedFileName : Str
  protoName : Str
  imports : GoMap
  services : List Service
deriving DecidableEq, Repr

/-- A `protogen.GeneratedFile`: its name and the text written to it. -/
structure GeneratedFile where
  filename : Str
  content : Str
deriving DecidableEq, Repr

/-- The part of `protogen.Plugin` the generator acts on: the errors passed to
`gen.Error`, the files created by `gen.NewGeneratedFile` (both in call order) and
whether `SupportedFeatures` has been set. -/
structure Plugin where
  errors : List Str
  generated : List GeneratedFile
  featuresSet : Bool
deriving DecidableEq, Repr

/-- `gen.Error(err)`. -/
def Plugin.error (gen : Plugin) (msg : Str) : Plugin :=
  { gen with errors := gen.errors ++ [msg] }

/-- `gen.NewGeneratedFile(filename, _)` together with the text later written to it. -/
def Plugin.newGeneratedFile (gen : Plugin) (g : GeneratedFile) : Plugin :=
  { gen with generated := gen.generated ++ [g] }

/-- Library code called by `generateFile` that lives outside the repository:
`path/filepath` (`Dir`, `Base`, `Join`, `Rel`) and `text/template` (the outcome of
parsing `twirpTemplate`, and `Execute`, which yields the text written and
possibly an error). -/
structure Env where
  dir : Str → Str
  base : Str → Str
  join : Str → Str → Str
  rel : Str → Str → Except Str Str
  parseError : Option Str
  execute : TwirpFileData → Str × Option Str

/-! ## `path/filepath` on a Unix system

`generateFile` runs inside `protoc`, with `/` as the path separator and no volume
names.  These definitions follow the Go library functions for that case. -/

/-- `strings.Split(s, "/")`. -/
def splitSlash : Str → List Str
  | [] => [[]]
  | c :: cs =>
    match splitSlash cs with
    | [] => [[]]
    | seg :: segs => if c = '/' then [] :: seg :: segs else (c :: seg) :: segs

/-- `strings.Join(elems, "/")`. -/
def joinSlash : List Str → Str
  | [] => []
  | [e] => e
  | e :: es => e ++ '/' :: joinSlash es

/-- The elements kept by `filepath.Clean`, last one first: empty elements and `.`
are dropped, `..` removes the element before it when there is one, and is kept at
the front of a path that is not rooted. -/
def cleanElems (rooted : Bool) : List Str → List Str → List Str
  | [], kept => kept
  | e :: es, kept =>
    if e = [] ∨ e = ['.'] then cleanElems rooted es kept
    else if e = ['.', '.'] then
      match kept with
      | top :: below =>
        if top = ['.', '.'] then cleanElems rooted es (e :: kept)
        else cleanElems rooted es below
      | [] => if rooted then cleanElems rooted es kept else cleanElems rooted es [e]
    else cleanElems rooted es (e :: kept)

/-- `filepath.Clean`. -/
def clean (path : Str) : Str :=
  if path = [] then ['.']
  else
    let rooted := path.head? = some '/'
    let kept := (cleanElems rooted (splitSlash path) []).reverse
    if rooted then '/' :: joinSlash kept
    else if kept = [] then ['.'] else joinSlash kept

/-- `filepath.Dir`: the path up to its last separator, cleaned. -/
def dir (path : Str) : Str :=
  clean (path.reverse.dropWhile (fun c => c != '/')).reverse

/-- `filepath.Base`: the last element, after trailing separators are removed. -/
def base (path : Str) : Str :=
  if path = [] then ['.']
  else
    let trimmed := (path.reverse.dropWhile (fun c => c == '/')).reverse
    let last := lastSegment trimmed
    if last = [] then ['/'] else last

/-- `filepath.Join` of two elements. -/
def join (a b : Str) : Str :=
  if a ≠ [] then clean (a ++ '/' :: b)
  else if b ≠ [] then clean b
  else []

/-- The scan of `filepath.Rel` over the leading elements that `base` and `targ`
share: the result is what is left of each once the shared elements, with the
separators after them, are stepped over. -/
def relLoop : Nat → Str → Str → Str × Str
  | 0, b, t => (b, t)
  | fuel + 1, b, t =>
    if b = [] ∨ t = [] then (b, t)
    else
      let eb := b.takeWhile (fun c => c != '/')
      let et := t.takeWhile (fun c => c != '/')
      if eb ≠ et then (b, t)
      else relLoop fuel (b.drop (eb.length + 1)) (t.drop (et.length + 1))

/-- `filepath.Rel(basepath, targpath)`: both paths are cleaned, `.` counts as the
empty path, a rooted and an unrooted path cannot be related, and neither can a
base whose first element not shared with the target is `..`; otherwise the result
climbs out of what is left of the base and descends into what is left of the
target. -/
def rel (basepath targpath : Str) : Except Str Str :=
  let cannot : Str :=
    "Rel: can't make ".toList ++ targpath ++ " relative to ".toList ++ basepath
  let base0 := clean basepath
  let targ0 := clean targpath
  if targ0 = base0 then .ok ['.']
  else
    let base1 := if base0 = ['.'] then [] else base0
    let targ1 := if targ0 = ['.'] then [] else targ0
    let baseSlashed := base1.head? = some '/'
    let targSlashed := targ1.head? = some '/'
    if baseSlashed ≠ targSlashed then .error cannot
    else
      let (bRest, tRest) := relLoop (base1.length + 1) base1 targ1
      if bRest.takeWhile (fun c => c != '/') = ['.', '.'] then .error cannot
      else if bRest ≠ [] then
        let seps := bRest.count '/'
        let ups := ['.', '.'] ++ (List.replicate seps ['/', '.', '.']).flatten
        .ok (if tRest ≠ [] then ups ++ '/' :: tRest else ups)
      else .ok tRest

/-- The environment of a run on a Unix system: `path/filepath` as above, and a
given outcome of parsing and executing the template. -/
def unixEnv (parseError : Option Str) (execute : TwirpFileData → Str × Option Str) : Env :=
  { dir := dir, base := base, join := join, rel := rel,
    parseError := parseError, execute := execute }

/-! ## `generateFile` -/

/-- The locals `importCounts` and `importMappings` of `generateFile`. -/
structure AliasState where
  importCounts : Nat
  importMappings : GoMap
deriving DecidableEq, Repr

/-- `importCounts := 1; importMappings := map[string]string{}`. -/
def AliasState.init : AliasState := ⟨1, []⟩

/-- Lines 50-53: a package not yet in `importMappings` gets `"$" + importCounts`,
and the counter is incremented. -/
def AliasState.see (st : AliasState) (pkg : Str) : AliasState :=
  match st.importMappings.get pkg with
  | some _ => st
  | none => ⟨st.importCounts + 1, st.importMappings.set pkg (sprintfAlias st.importCounts)⟩

/-- Line 66: `alias := importMappings[pkg]`. -/
def AliasState.aliasOf (st : AliasState) (pkg : Str) : Str := st.importMappings.index pkg

/-- The alias state after the loop has handled the imports `imps` (the path
computations do not touch `importCounts` or `importMappings`). -/
def aliasRun (imps : List Import) : AliasState :=
  imps.foldl (fun st imp => st.see imp.package) AliasState.init

/-- Lines 55-65: the import string of one import, or the error of `filepath.Rel`. -/
def emittedPath (E : Env) (filePath : Str) (imp : Import) : Except Str Str :=
  let importFilePath := E.dir imp.path
  match E.rel filePath importFilePath with
  | .error err => .error err
  | .ok relativePath =>
    let importPath := E.join relativePath (E.base imp.path)
    .ok (replaceAll importPath ".proto".toList [])

/-- The loop of lines 47-69 over the remaining imports, from the alias state `st`
and the table `table` (`data.Imports`); an error is the early return of line 61. -/
def importLoop (E : Env) (filePath : Str) :
    List Import → AliasState → GoMap → Except Str (AliasState × GoMap)
  | [], st, table => .ok (st, table)
  | imp :: rest, st, table =>
    let pkg := imp.package
    let st1 := st.see pkg
    match emittedPath E filePath imp with
    | .error err => .error err
    | .ok finalPath =>
      let aliasTok := st1.aliasOf pkg
      importLoop E filePath rest st1 (table.set finalPath aliasTok)

/-- Lines 36-72 of `generateFile`: the value of `data` handed to the template, or
the error of the early return of line 61. -/
def buildData (E : Env) (file : File) : Except Str TwirpFileData :=
  let protoName := trimSuffix (lastSegment file.protoName) ".proto".toList
  let filePath := E.dir file.descPath
  match importLoop E filePath file.imports AliasState.init [] with
  | .error err => .error err
  | .ok (_, imports) =>
    .ok { generatedFileName := file.generatedFilenamePrefix
          protoName := protoName
          imports := imports
          services := file.services }

/-- The function `generateFile`: the plugin after the call and the returned
generated file or error. -/
def generateFile (E : Env) (gen : Plugin) (file : File) :
    Plugin × Except Str GeneratedFile :=
  match buildData E file with
  | .error err =>
    (gen.error ("error generating relative import path: ".toList ++ err), .error err)
  | .ok data =>
    match E.parseError with
    | some err => (gen.error ("error parsing template: ".toList ++ err), .error err)
    | none =>
      let filename := file.generatedFilenamePrefix ++ ".pbtwirp.dart".toList
      let out := E.execute data
      let g : GeneratedFile := { filename := filename, content := out.1 }
      let gen1 := gen.newGeneratedFile g
      match out.2 with
      | some err => (gen1.error ("error executing template: ".toList ++ err), .error err)
      | none => (gen1, .ok g)

/-! ## `main` -/

/-- The loop of `main` over `gen.Files`. -/
def mainLoop (E : Env) : Plugin → List File → Plugin
  | gen, [] => gen
  | gen, f :: fs =>
    if !f.generate || f.services.length == 0 then mainLoop E gen fs
    else mainLoop E (generateFile E gen f).1 fs

/-- The callback run by `main`: the loop, then `gen.SupportedFeatures` is set. -/
def run (E : Env) (gen : Plugin) (files : List File) : Plugin :=
  { mainLoop E gen files with featuresSet := true }

/-! ## Template functions -/

/-- `unicode.ToLower` on a code point below 256: the letters `A`-`Z` and the
capital letters of Latin-1 (`U+00C0`-`U+00DE` without `U+00D7`) move up by 32. -/
def toLowerRune (r : Nat) : Nat :=
  if (65 ≤ r ∧ r ≤ 90) ∨ (192 ≤ r ∧ r ≤ 222 ∧ r ≠ 215) then r + 32 else r

/-- The UTF-8 bytes of a code point below 256, as in the Go conversion `string(b)`
of a byte `b`. -/
def utf8Rune (r : Nat) : List Nat :=
  if r < 128 then [r] else [192 + r / 64, 128 + r % 64]

/-- The function `lowerFirstLetter` on the bytes of `s`:
`strings.ToLower(string(s[0])) + s[1:]`; `none` is the panic of `s[0]` on the
empty string. -/
def lowerFirstLetter : List Nat → Option (List Nat)
  | [] => none
  | b :: rest => some (utf8Rune (toLowerRune b) ++ rest)

/-! ## The generated Dart client -/

/-- The two client variants generated for a service. -/
inductive Transport where
  | json
  | protobuf
deriving DecidableEq, Repr

/-- The fields `baseUrl` and `prefix` of a generated client. -/
structure Client where
  transport : Transport
  baseUrl : Str
  pfx : Str
deriving DecidableEq, Repr

/-- Dart `s.endsWith('/')`. -/
def endsWithSlash (s : Str) : Bool := s.getLast? == some '/'

/-- Dart `s.startsWith('/')`. -/
def startsWithSlash (s : Str) : Bool := s.head? == some '/'

/-- The constructor of `<Service>JSONClient` (template lines 164-168). -/
def newJSONClient (baseUrl pfx : Str) : Client :=
  let baseUrl := if !endsWithSlash baseUrl then baseUrl ++ ['/'] else baseUrl
  let pfx := if !endsWithSlash pfx then pfx ++ ['/'] else pfx
  let pfx := if startsWithSlash pfx then pfx.drop 1 else pfx
  { transport := .json, baseUrl := baseUrl, pfx := pfx }

/-- The constructor of `<Service>ProtobufClient` (template lines 207-210). -/
def newProtobufClient (baseUrl pfx : Str) : Client :=
  let baseUrl := if !endsWithSlash baseUrl then baseUrl ++ ['/'] else baseUrl
  let pfx := if !endsWithSlash pfx then pfx ++ ['/'] else pfx
  let pfx := if startsWithSlash pfx then pfx.drop 1 else pfx
  { transport := .protobuf, baseUrl := baseUrl, pfx := pfx }

/-- Construction of a client of either variant. -/
def newClient : Transport → Str → Str → Client
  | .json => newJSONClient
  | .protobuf => newProtobufClient

/-- The names under which a client method stores values in the call context. -/
inductive CtxKey where
  | packageName
  | serviceName
  | methodName
deriving DecidableEq, Repr

/-- Modelled from the spec: the call context `twirp.Context` of the Dart runtime
library (`package:tart`, absent from the generator source).  It carries the named
values added to it, in the order they were added, and the HTTP headers to send. -/
structure Context where
  values : List (CtxKey × Str)
  headers : List (Str × Str)
deriving DecidableEq, Repr

/-- Modelled from the spec: `twirp.withPackageName`, absent from the generator
source; it adds the package name to the named values of the context. -/
def withPackageName (ctx : Context) (v : Str) : Context :=
  { ctx with values := ctx.values ++ [(.packageName, v)] }

/-- Modelled from the spec: `twirp.withServiceName`, absent from the generator
source; it adds the service name to the named values of the context. -/
def withServiceName (ctx : Context) (v : Str) : Context :=
  { ctx with values := ctx.values ++ [(.serviceName, v)] }

/-- Modelled from the spec: `twirp.withMethodName`, absent from the generator
source; it adds the method name to the named values of the context. -/
def withMethodName (ctx : Context) (v : Str) : Context :=
  { ctx with values := ctx.values ++ [(.methodName, v)] }

/-- Modelled from the spec: `twirp.retrieveHttpRequestHeaders`, absent from the
generator source; it yields the headers carried by the context. -/
def retrieveHttpRequestHeaders (ctx : Context) : List (Str × Str) := ctx.headers

/-- `protoreflect.FullName.Name()`: the part of a full name after its last dot,
the whole name when it has no dot. -/
def fullNameName (n : Str) : Str := (n.reverse.takeWhile (fun c => c != '.')).reverse

/-- The context a generated client method passes on (template lines 179-181 and
219-221, the same text in both variants): `ParentFile.Package.Name`, then the
service name, then the method name are added. -/
def methodContext (_t : Transport) (file : File) (svc : Service) (m : Method)
    (ctx : Context) : Context :=
  let ctx := withPackageName ctx (fullNameName file.package)
  let ctx := withServiceName ctx svc.goName
  let ctx := withMethodName ctx m.goName
  ctx

/-- The string a generated client method appends to `baseUrl + prefix` (template
lines 189 and 229): `<ParentFile.Package>.<Service>/<Method>`. -/
def methodRoute (_t : Transport) (file : File) (svc : Service) (m : Method) : Str :=
  file.package ++ '.' :: svc.goName ++ '/' :: m.goName

/-- The URL a generated client method requests. -/
def requestUrl (c : Client) (file : File) (svc : Service) (m : Method) : Str :=
  c.baseUrl ++ c.pfx ++ methodRoute c.transport file svc m

/-- An `http.Request`: method, URL and headers. -/
structure Request where
  method : Str
  url : Str
  headers : List (Str × Str)
deriving DecidableEq, Repr

/-- The header name `Accept`. -/
def acceptHeader : Str := "Accept".toList

/-- The header name `Content-Type`. -/
def contentTypeHeader : Str := "Content-Type".toList

/-- The function `createRequest` of the template (lines 329-343).  `keq` is the
comparison of header names used by the `headers` map of `http.Request`. -/
def createRequest (keq : Str → Str → Bool) (url : Str) (ctx : Context)
    (applicationHeader : Str) : Request :=
  let req : Request := { method := "POST".toList, url := url, headers := [] }
  let headersFromCtx := retrieveHttpRequestHeaders ctx
  let req := { req with headers := mapAddAll keq req.headers headersFromCtx }
  let req := { req with headers := mapSet keq acceptHeader applicationHeader req.headers }
  let req := { req with headers := mapSet keq contentTypeHeader applicationHeader req.headers }
  req

/-- The media type each variant passes to `createRequest`. -/
def mediaType : Transport → Str
  | .json => "application/json".toList
  | .protobuf => "application/protobuf".toList

/-! ## Definitions used to state and prove the properties -/

/-- One step of `firstSeen`: a package not met before is added at the end. -/
def noteSeen (seen : List Str) (p : Str) : List Str := if p ∈ seen then seen else seen ++ [p]

/-- The distinct packages of a list, in the order in which each is first met. -/
def firstSeen (pkgs : List Str) : List Str := pkgs.foldl noteSeen []

/-- The index, from 0, of the first occurrence of `p` in a list (the length of the
list when `p` does not occur). -/
def indexIn (p : Str) : List Str → Nat
  | [] => 0
  | q :: rest => if q = p then 0 else indexIn p rest + 1

/-- The position `k ≥ 1` of the package `pkg` among the distinct packages of
the imports, in first-seen order. -/
def rank (imps : List Import) (pkg : Str) : Nat :=
  indexIn pkg (firstSeen (imps.map fun imp => imp.package)) + 1

/-- The import string as the specification words it: the path of the imported file
relative to the directory of the file being generated, without a trailing
`.proto`. -/
def expectedImportPath (E : Env) (filePath : Str) (imp : Import) : Except Str Str :=
  match E.rel filePath imp.path with
  | .error err => .error err
  | .ok relativePath => .ok (trimSuffix relativePath ".proto".toList)

/-- A file is handled by `generateFile` when it is flagged for generation and
declares at least one service. -/
def eligible (f : File) : Bool := f.generate && f.services.length != 0

/-- The prefix once a separator has been appended where it lacked one. -/
def padded (pfx : Str) : Str := if !endsWithSlash pfx then pfx ++ ['/'] else pfx

/-- The number read from decimal digit characters, continuing from `init`. -/
def digitsValue (cs : Str) (init : Nat) : Nat :=
  cs.foldl (fun acc c => acc * 10 + (c.toNat - 48)) init

/-- The alias state `st` agrees with the list `seen` of packages met so far: the
counter is one more than their number, and `importMappings` holds for each of them
the token of its position. -/
def AliasInv (seen : List Str) (st : AliasState) : Prop :=
  st.importCounts = seen.length + 1 ∧
    ∀ p, st.importMappings.get p =
      if p ∈ seen then some (sprintfAlias (indexIn p seen + 1)) else none

/-! ## Concrete inputs -/

/-- An environment on a Unix system in which the template parses and executes
without error and writes nothing. -/
def quietEnv : Env := unixEnv none (fun _ => ([], none))

/-- A plugin on which nothing has been done yet. -/
def freshPlugin : Plugin := { errors := [], generated := [], featuresSet := false }

/-- Three imports from two packages, the first package met again after the second. -/
def sampleImports : List Import :=
  [⟨"a/x.proto".toList, "pa".toList⟩, ⟨"b/y.proto".toList, "pb".toList⟩,
    ⟨"a/z.proto".toList, "pa".toList⟩]

/-- Two imports of different packages whose import strings coincide: a file named
`types` and a file named `types.proto`. -/
def collidingImports : List Import :=
  [⟨"types".toList, "alpha".toList⟩, ⟨"types.proto".toList, "beta".toList⟩]

/-- The file `svc.proto` with the imports `collidingImports`. -/
def collidingFile : File :=
  { generate := true, generatedFilenamePrefix := "svc".toList, protoName := "svc.proto".toList,
    descPath := "svc.proto".toList, package := "demo".toList,
    imports := collidingImports, services := [⟨"Svc".toList, [], []⟩] }

/-- The file `svc.proto` with the imports `sampleImports`. -/
def sampleFile : File :=
  { generate := true, generatedFilenamePrefix := "svc".toList, protoName := "svc.proto".toList,
    descPath := "svc.proto".toList, package := "demo".toList,
    imports := sampleImports, services := [⟨"Svc".toList, [], []⟩] }

/-- A file at the root of the source tree that imports a file by an absolute path. -/
def rootedImportFile : File :=
  { generate := true, generatedFilenamePrefix := "svc".toList, protoName := "svc.proto".toList,
    descPath := "svc.proto".toList, package := "demo".toList,
    imports := [⟨"/abs/types.proto".toList, "abs".toList⟩],
    services := [⟨"Svc".toList, [], []⟩] }

/-- A file of package `twirp.example.haberdasher` with the service `Haberdasher`
and its method `MakeHat`. -/
def haberdasherFile : File :=
  { generate := true, generatedFilenamePrefix := "service".toList,
    protoName := "service.proto".toList, descPath := "service.proto".toList,
    package := "twirp.example.haberdasher".toList, imports := [],
    services := [⟨"Haberdasher".toList, [],
      [⟨"MakeHat".toList, "Size".toList, "Hat".toList, []⟩]⟩] }

/-- A context that carries a tracing header and an `Accept` header of its own. -/
def sampleContext : Context :=
  { values := [],
    headers := [("X-Trace".toList, "abc".toList), ("Accept".toList, "text/plain".toList)] }

/-- A context whose headers, a Dart map with two distinct keys, name the same header
twice with different case. -/
def twoCaseContext : Context :=
  { values := [],
    headers := [("X-Trace".toList, "one".toList), ("x-trace".toList, "two".toList)] }

/-! ## Lemmas on association maps -/

section MapLemmas

variable {α β : Type}

theorem mapGet_mapSet_self {keq : α → α → Bool} (hrefl : ∀ a, keq a a = true)
    (k : α) (v : β) (m : List (α × β)) :
    mapGet keq k (mapSet keq k v m) = some v := by
  induction m with
  | nil => simp [mapSet, mapGet, hrefl]
  | cons e rest ih =>
    obtain ⟨k', v'⟩ := e
    by_cases h : keq k' k = true
    · simp [mapSet, mapGet, h]
    · simp [mapSet, mapGet, h, ih]

theorem mapGet_mapSet_other {keq : α → α → Bool} (hk : KeyEquiv keq) {k j : α}
    (h : keq k j = false) (v : β) (m : List (α × β)) :
    mapGet keq j (mapSet keq k v m) = mapGet keq j m := by
  induction m with
  | nil => simp [mapSet, mapGet, h]
  | cons e rest ih =>
    obtain ⟨k', v'⟩ := e
    by_cases hk' : keq k' k = true
    · have hj : keq k' j = false := by
        cases hkj : keq k' j with
        | false => rfl
        | true =>
          have := hk.trans k k' j (hk.symm k' k hk') hkj
          rw [h] at this
          exact absurd this (by decide)
      simp [mapSet, mapGet, hk', hj]
    · simp [mapSet, mapGet, hk', ih]

theorem strEq_keyEquiv : KeyEquiv strEq where
  refl := by intro a; simp [strEq]
  symm := by intro a b h; simp [strEq] at h ⊢; exact h.symm
  trans := by intro a b c h1 h2; simp [strEq] at h1 h2 ⊢; exact h1.trans h2

theorem GoMap.get_set_self (m : GoMap) (k v : Str) : (m.set k v).get k = some v :=
  mapGet_mapSet_self strEq_keyEquiv.refl k v m

theorem GoMap.get_set_other (m : GoMap) {k j : Str} (h : k ≠ j) (v : Str) :
    (m.set k v).get j = m.get j :=
  mapGet_mapSet_other strEq_keyEquiv (by simp [strEq, h]) v m

end MapLemmas

/-! ## Decimal rendering is injective -/

theorem digitChar_value : ∀ d, d < 10 → (Nat.digitChar d).toNat - 48 = d := by
  decide

theorem toDigitsCore_value : ∀ (fuel n : Nat) (ds : Str), n < fuel →
    digitsValue (Nat.toDigitsCore 10 fuel n ds) 0 = digitsValue ds n := by
  intro fuel
  induction fuel with
  | zero => intro n ds h; omega
  | succ fuel ih =>
    intro n ds h
    have hd := digitChar_value (n % 10) (Nat.mod_lt _ (by decide))
    by_cases h0 : n / 10 = 0
    · have hn : n % 10 = n := Nat.mod_eq_of_lt (by omega)
      rw [hn] at hd
      simp [Nat.toDigitsCore, h0, digitsValue, hd, hn]
    · have hlt : n / 10 < fuel := by omega
      have := ih (n / 10) (Nat.digitChar (n % 10) :: ds) hlt
      simp only [Nat.toDigitsCore, h0, if_false]
      rw [this]
      simp only [digitsValue, List.foldl_cons, hd]
      congr 1
      omega

theorem toDigits_value (n : Nat) : digitsValue (Nat.toDigits 10 n) 0 = n := by
  have := toDigitsCore_value (n + 1) n [] (by omega)
  simpa [Nat.toDigits, digitsValue] using this

theorem sprintfAlias_injective {a b : Nat} (h : sprintfAlias a = sprintfAlias b) : a = b := by
  have h' : Nat.toDigits 10 a = Nat.toDigits 10 b := by
    simpa [sprintfAlias] using h
  have := congrArg (fun cs => digitsValue cs 0) h'
  simpa [toDigits_value] using this

/-! ## Alias tokens follow the first-seen order of packages -/

theorem foldl_noteSeen_extends (pkgs : List Str) :
    ∀ seen, ∃ ext, pkgs.foldl noteSeen seen = seen ++ ext := by
  induction pkgs with
  | nil => intro seen; exact ⟨[], by simp⟩
  | cons p rest ih =>
    intro seen
    obtain ⟨ext, he⟩ := ih (noteSeen seen p)
    by_cases hp : p ∈ seen
    · refine ⟨ext, ?_⟩
      simpa [noteSeen, hp] using he
    · refine ⟨p :: ext, ?_⟩
      simpa [noteSeen, hp] using he

theorem mem_foldl_noteSeen (pkgs : List Str) :
    ∀ seen p, p ∈ pkgs.foldl noteSeen seen ↔ p ∈ seen ∨ p ∈ pkgs := by
  induction pkgs with
  | nil => intro seen p; simp
  | cons q rest ih =>
    intro seen p
    rw [List.foldl_cons, ih]
    by_cases hq : q ∈ seen
    · simp only [noteSeen, hq, if_true, List.mem_cons]
      constructor
      · rintro (h | h)
        · exact Or.inl h
        · exact Or.inr (Or.inr h)
      · rintro (h | h | h)
        · exact Or.inl h
        · exact Or.inl (h ▸ hq)
        · exact Or.inr h
    · simp only [noteSeen, hq, if_false, List.mem_append, List.mem_singleton, List.mem_cons]
      tauto

theorem mem_firstSeen {pkgs : List Str} {p : Str} : p ∈ firstSeen pkgs ↔ p ∈ pkgs := by
  simp [firstSeen, mem_foldl_noteSeen]

theorem nodup_foldl_noteSeen (pkgs : List Str) :
    ∀ seen, seen.Nodup → (pkgs.foldl noteSeen seen).Nodup := by
  induction pkgs with
  | nil => intro seen h; simpa using h
  | cons q rest ih =>
    intro seen h
    rw [List.foldl_cons]
    apply ih
    by_cases hq : q ∈ seen
    · simpa [noteSeen, hq] using h
    · simp only [noteSeen, hq, if_false]
      exact List.Nodup.append h (List.nodup_singleton q) (by simpa using hq)

theorem nodup_firstSeen (pkgs : List Str) : (firstSeen pkgs).Nodup :=
  nodup_foldl_noteSeen pkgs [] List.nodup_nil

theorem indexIn_append_of_mem {p : Str} {l : List Str} (h : p ∈ l) (ext : List Str) :
    indexIn p (l ++ ext) = indexIn p l := by
  induction l with
  | nil => simp at h
  | cons q rest ih =>
    by_cases hq : q = p
    · simp [indexIn, hq]
    · have : p ∈ rest := by
        rcases List.mem_cons.1 h with h | h
        · exact absurd h.symm hq
        · exact h
      simp [indexIn, hq, ih this]

theorem indexIn_append_of_not_mem {p : Str} {l : List Str} (h : p ∉ l) :
    indexIn p (l ++ [p]) = l.length := by
  induction l with
  | nil => simp [indexIn]
  | cons q rest ih =>
    have hq : q ≠ p := fun e => h (by simp [e])
    have hr : p ∉ rest := fun e => h (List.mem_cons_of_mem _ e)
    simp [indexIn, hq, ih hr]

theorem indexIn_inj {p q : Str} {l : List Str} (hp : p ∈ l) (hq : q ∈ l)
    (h : indexIn p l = indexIn q l) : p = q := by
  induction l with
  | nil => simp at hp
  | cons r rest ih =>
    by_cases h1 : r = p
    · by_cases h2 : r = q
      · exact h1.symm.trans h2
      · rw [indexIn, indexIn, if_pos h1, if_neg h2] at h
        omega
    · by_cases h2 : r = q
      · rw [indexIn, indexIn, if_neg h1, if_pos h2] at h
        omega
      · have hp1 : p ∈ rest := by
          rcases List.mem_cons.1 hp with e | e
          · exact absurd e.symm h1
          · exact e
        have hq1 : q ∈ rest := by
          rcases List.mem_cons.1 hq with e | e
          · exact absurd e.symm h2
          · exact e
        rw [indexIn, indexIn, if_neg h1, if_neg h2] at h
        exact ih hp1 hq1 (by omega)

theorem aliasInv_init : AliasInv [] AliasState.init := by
  refine ⟨rfl, ?_⟩
  intro p
  simp [AliasState.init, GoMap.get, mapGet]

theorem aliasInv_see {seen : List Str} {st : AliasState} (h : AliasInv seen st) (p : Str) :
    AliasInv (noteSeen seen p) (st.see p) := by
  obtain ⟨hc, hm⟩ := h
  by_cases hp : p ∈ seen
  · have hget := hm p
    simp only [hp, if_true] at hget
    have hsee : st.see p = st := by simp [AliasState.see, hget]
    simpa [noteSeen, hp, hsee] using And.intro hc hm
  · have hget := hm p
    simp only [hp, if_false] at hget
    have hsee : st.see p =
        ⟨st.importCounts + 1, st.importMappings.set p (sprintfAlias st.importCounts)⟩ := by
      simp [AliasState.see, hget]
    rw [hsee]
    simp only [noteSeen, hp, if_false]
    refine ⟨by simp [hc], ?_⟩
    intro q
    by_cases hqp : q = p
    · subst hqp
      rw [GoMap.get_set_self, indexIn_append_of_not_mem hp]
      simp [hc]
    · rw [GoMap.get_set_other _ (Ne.symm hqp), hm q]
      by_cases hq : q ∈ seen
      · rw [indexIn_append_of_mem hq]
        simp [hq]
      · simp [hq, hqp]

theorem aliasInv_foldl (pkgs : List Str) :
    ∀ seen st, AliasInv seen st →
      AliasInv (pkgs.foldl noteSeen seen) (pkgs.foldl AliasState.see st) := by
  induction pkgs with
  | nil => intro seen st h; simpa using h
  | cons p rest ih =>
    intro seen st h
    simpa using ih _ _ (aliasInv_see h p)

theorem aliasRun_eq (imps : List Import) :
    aliasRun imps = (imps.map fun imp => imp.package).foldl AliasState.see AliasState.init := by
  simp [aliasRun, List.foldl_map]

theorem aliasInv_aliasRun (imps : List Import) :
    AliasInv (firstSeen (imps.map fun imp => imp.package)) (aliasRun imps) := by
  rw [aliasRun_eq]
  exact aliasInv_foldl _ _ _ aliasInv_init

theorem aliasOf_aliasRun {imps : List Import} {p : Str}
    (hp : p ∈ imps.map fun imp => imp.package) :
    (aliasRun imps).aliasOf p = sprintfAlias (rank imps p) := by
  have h := (aliasInv_aliasRun imps).2 p
  have hmem : p ∈ firstSeen (imps.map fun imp => imp.package) := mem_firstSeen.2 hp
  simp only [hmem, if_true] at h
  simp [AliasState.aliasOf, GoMap.index, h, rank]

theorem rank_append {imps : List Import} {p : Str}
    (hp : p ∈ imps.map fun imp => imp.package) (more : List Import) :
    rank (imps ++ more) p = rank imps p := by
  obtain ⟨ext, he⟩ := foldl_noteSeen_extends (more.map fun imp => imp.package)
    (firstSeen (imps.map fun imp => imp.package))
  have hmem : p ∈ firstSeen (imps.map fun imp => imp.package) := mem_firstSeen.2 hp
  have hfs : firstSeen ((imps ++ more).map fun imp => imp.package) =
      firstSeen (imps.map fun imp => imp.package) ++ ext := by
    rw [← he]
    simp [firstSeen, List.foldl_append]
  unfold rank
  rw [hfs, indexIn_append_of_mem hmem]

theorem importLoop_aliasState (E : Env) (filePath : Str) (imps : List Import) :
    ∀ st table st1 table1, importLoop E filePath imps st table = .ok (st1, table1) →
      st1 = imps.foldl (fun s imp => s.see imp.package) st := by
  induction imps with
  | nil =>
    intro st table st1 table1 h
    simp [importLoop] at h
    simp [h.1]
  | cons imp rest ih =>
    intro st table st1 table1 h
    simp only [importLoop] at h
    cases hp : emittedPath E filePath imp with
    | error err => simp [hp] at h
    | ok finalPath =>
      simp only [hp] at h
      simpa using ih _ _ _ _ h

theorem getElem?_indexIn {p : Str} {l : List Str} (h : p ∈ l) : l[indexIn p l]? = some p := by
  induction l with
  | nil => simp at h
  | cons q rest ih =>
    by_cases hq : q = p
    · simp [indexIn, hq]
    · have : p ∈ rest := by
        rcases List.mem_cons.1 h with e | e
        · exact absurd e.symm hq
        · exact e
      simp [indexIn, hq, ih this]

/-- C1: within one call of `generateFile` the alias token is a function of the
package, in first-seen order from 1.  For every import list: (1) the distinct
packages in first-seen order have no repetition, and each import's package stands
at position `rank` (counted from 1) among them; (2) the alias read for an import
whose package is the `k`-th distinct package is `"$k"`; (3) two imports have the
same alias exactly when they have the same package; (4) handling further imports
leaves the alias of every earlier import unchanged; (5) the alias state a
successful run of the import loop ends in is the one described here. -/
theorem alias_tokens_first_seen (imps : List Import) :
    ((firstSeen (imps.map fun imp => imp.package)).Nodup ∧
      ∀ imp ∈ imps, 1 ≤ rank imps imp.package ∧
        (firstSeen (imps.map fun imp => imp.package))[rank imps imp.package - 1]? =
          some imp.package) ∧
    (∀ imp ∈ imps,
      (aliasRun imps).aliasOf imp.package = '$' :: Nat.toDigits 10 (rank imps imp.package)) ∧
    (∀ a ∈ imps, ∀ b ∈ imps,
      ((aliasRun imps).aliasOf a.package = (aliasRun imps).aliasOf b.package ↔
        a.package = b.package)) ∧
    (∀ more : List Import, ∀ imp ∈ imps,
      (aliasRun (imps ++ more)).aliasOf imp.package = (aliasRun imps).aliasOf imp.package) ∧
    (∀ (E : Env) (filePath : Str) (st : AliasState) (table : GoMap),
      importLoop E filePath imps AliasState.init [] = .ok (st, table) → st = aliasRun imps) := by
  have hmem : ∀ imp ∈ imps, imp.package ∈ imps.map fun imp => imp.package :=
    fun imp h => List.mem_map.2 ⟨imp, h, rfl⟩
  refine ⟨⟨nodup_firstSeen _, ?_⟩, ?_, ?_, ?_, ?_⟩
  · intro imp h
    refine ⟨by simp [rank], ?_⟩
    simpa [rank] using getElem?_indexIn (mem_firstSeen.2 (hmem imp h))
  · intro imp h
    exact aliasOf_aliasRun (hmem imp h)
  · intro a ha b hb
    rw [aliasOf_aliasRun (hmem a ha), aliasOf_aliasRun (hmem b hb)]
    constructor
    · intro h
      have hr := sprintfAlias_injective h
      exact indexIn_inj (mem_firstSeen.2 (hmem a ha)) (mem_firstSeen.2 (hmem b hb))
        (by simpa [rank] using hr)
    · intro h
      rw [h]
  · intro more imp h
    have h1 : imp.package ∈ (imps ++ more).map fun imp => imp.package :=
      List.mem_map.2 ⟨imp, List.mem_append_left _ h, rfl⟩
    rw [aliasOf_aliasRun h1, aliasOf_aliasRun (hmem imp h), rank_append (hmem imp h)]
  · intro E filePath st table h
    exact importLoop_aliasState E filePath imps _ _ _ _ h

/-- C1 at `sampleImports`: the import of package `pb`, the second distinct package,
gets `"$2"`. -/
theorem alias_tokens_first_seen_witness :
    (aliasRun sampleImports).aliasOf "pb".toList = "$2".toList :=
  (alias_tokens_first_seen sampleImports).2.1 ⟨"b/y.proto".toList, "pb".toList⟩ (by decide)

/-! ## The table `data.Imports` -/

theorem see_get_of_isSome {st : AliasState} {pkg : Str}
    (h : (st.importMappings.get pkg).isSome) (q : Str) :
    (st.see q).importMappings.get pkg = st.importMappings.get pkg := by
  unfold AliasState.see
  cases hq : st.importMappings.get q with
  | some t => rfl
  | none =>
    have hne : q ≠ pkg := by
      intro e
      rw [e] at hq
      rw [hq] at h
      exact absurd h (by decide)
    exact GoMap.get_set_other _ hne _

theorem see_get_self_isSome (st : AliasState) (q : Str) :
    ((st.see q).importMappings.get q).isSome := by
  unfold AliasState.see
  cases hq : st.importMappings.get q with
  | some t => simp [hq]
  | none => simp [GoMap.get_set_self]

theorem see_aliasOf_of_isSome {st : AliasState} {pkg : Str}
    (h : (st.importMappings.get pkg).isSome) (q : Str) :
    (st.see q).aliasOf pkg = st.aliasOf pkg := by
  simp [AliasState.aliasOf, GoMap.index, see_get_of_isSome h q]

theorem importLoop_keeps (E : Env) (filePath p pkg : Str) :
    ∀ (rest : List Import) (st1 : AliasState) (table1 : GoMap) (st : AliasState) (table : GoMap),
      importLoop E filePath rest st1 table1 = .ok (st, table) →
      (st1.importMappings.get pkg).isSome →
      table1.get p = some (st1.aliasOf pkg) →
      (∀ imp ∈ rest, emittedPath E filePath imp = .ok p → imp.package = pkg) →
      table.get p = some (st.aliasOf pkg) := by
  intro rest
  induction rest with
  | nil =>
    intro st1 table1 st table h _ ht _
    simp [importLoop] at h
    rw [← h.1, ← h.2]
    exact ht
  | cons imp rest ih =>
    intro st1 table1 st table h hs ht hall
    simp only [importLoop] at h
    cases hp : emittedPath E filePath imp with
    | error err => simp [hp] at h
    | ok finalPath =>
      simp only [hp] at h
      have hs2 : ((st1.see imp.package).importMappings.get pkg).isSome := by
        rw [see_get_of_isSome hs]
        exact hs
      refine ih _ _ _ _ h hs2 ?_ (fun q hq => hall q (List.mem_cons_of_mem _ hq))
      by_cases hfp : finalPath = p
      · have hpkg : imp.package = pkg := hall imp (List.mem_cons_self _ _) (by rw [hp, hfp])
        rw [hfp, GoMap.get_set_self, hpkg]
      · rw [GoMap.get_set_other _ hfp, ht, see_aliasOf_of_isSome hs]

theorem importLoop_append (E : Env) (filePath : Str) (pre rest : List Import) :
    ∀ (st0 : AliasState) (table0 : GoMap) (r : AliasState × GoMap),
      importLoop E filePath (pre ++ rest) st0 table0 = .ok r →
      ∃ stp tablep, importLoop E filePath pre st0 table0 = .ok (stp, tablep) ∧
        importLoop E filePath rest stp tablep = .ok r := by
  induction pre with
  | nil => intro st0 table0 r h; exact ⟨st0, table0, by simp [importLoop], by simpa using h⟩
  | cons imp pre ih =>
    intro st0 table0 r h
    simp only [List.cons_append, importLoop] at h ⊢
    cases hp : emittedPath E filePath imp with
    | error err => simp [hp] at h
    | ok finalPath =>
      simp only [hp] at h ⊢
      exact ih _ _ _ h

theorem buildData_ok (E : Env) (file : File) (data : TwirpFileData)
    (h : buildData E file = .ok data) :
    ∃ st, importLoop E (E.dir file.descPath) file.imports AliasState.init [] =
      .ok (st, data.imports) := by
  unfold buildData at h
  cases hl : importLoop E (E.dir file.descPath) file.imports AliasState.init [] with
  | error err => simp [hl] at h
  | ok r =>
    obtain ⟨st, table⟩ := r
    simp only [hl] at h
    injection h with h
    exact ⟨st, by rw [← h]⟩

/-- C3, as stated, fails: for the file `svc.proto` with the imports `types`
(package `alpha`) and `types.proto` (package `beta`), import resolution succeeds,
both imports emit the path `types`, the alias of `alpha` is `"$1"`, and
`data.Imports` maps `types` to `"$2"`, the alias of `beta`: handling the
second import replaced the alias recorded for the first. -/
theorem imports_table_collision :
    buildData quietEnv collidingFile =
        .ok { generatedFileName := "svc".toList, protoName := "svc".toList,
              imports := [("types".toList, "$2".toList)],
              services := [⟨"Svc".toList, [], []⟩] } ∧
      emittedPath quietEnv (quietEnv.dir collidingFile.descPath)
        ⟨"types".toList, "alpha".toList⟩ = .ok "types".toList ∧
      emittedPath quietEnv (quietEnv.dir collidingFile.descPath)
        ⟨"types.proto".toList, "beta".toList⟩ = .ok "types".toList ∧
      (aliasRun collidingFile.imports).aliasOf "alpha".toList = "$1".toList ∧
      (aliasRun collidingFile.imports).aliasOf "beta".toList = "$2".toList ∧
      GoMap.get [("types".toList, "$2".toList)] "types".toList = some "$2".toList :=
  ⟨rfl, rfl, rfl, rfl, rfl, rfl⟩

/-- C3, amended: when import resolution of a file succeeds, every import of the
file has an emitted path, and `data.Imports` maps that path to the alias token of
the import's package provided every later import that emits the same path has the
same package; in particular a later import that emits another path, or has the
same package, never changes the alias recorded for an earlier import. -/
theorem imports_table_records_alias (E : Env) (file : File) (data : TwirpFileData)
    (h : buildData E file = .ok data)
    (pre : List Import) (imp : Import) (post : List Import)
    (hsplit : file.imports = pre ++ imp :: post) :
    ∃ p, emittedPath E (E.dir file.descPath) imp = .ok p ∧
      ((∀ later ∈ post, emittedPath E (E.dir file.descPath) later = .ok p →
          later.package = imp.package) →
        data.imports.get p = some ((aliasRun file.imports).aliasOf imp.package)) := by
  obtain ⟨st, hloop⟩ := buildData_ok E file data h
  have hst : st = aliasRun file.imports :=
    importLoop_aliasState E (E.dir file.descPath) file.imports _ _ _ _ hloop
  rw [hsplit] at hloop
  obtain ⟨stp, tablep, _, hrest⟩ :=
    importLoop_append E (E.dir file.descPath) pre (imp :: post) _ _ _ hloop
  simp only [importLoop] at hrest
  cases hp : emittedPath E (E.dir file.descPath) imp with
  | error err => simp [hp] at hrest
  | ok finalPath =>
    simp only [hp] at hrest
    refine ⟨finalPath, rfl, fun hall => ?_⟩
    rw [← hst]
    exact importLoop_keeps E (E.dir file.descPath) finalPath imp.package post _ _ _ _ hrest
      (see_get_self_isSome _ _) (GoMap.get_set_self _ _ _) hall

/-- C3, amended, at `sampleFile`: `data.Imports` maps `a/x`, the path emitted by the
first import, to the alias of its package `pa`. -/
theorem imports_table_records_alias_witness :
    GoMap.get [("a/x".toList, "$1".toList), ("b/y".toList, "$2".toList),
        ("a/z".toList, "$1".toList)] "a/x".toList =
      some ((aliasRun sampleFile.imports).aliasOf "pa".toList) := by
  obtain ⟨p, hp, hrec⟩ := imports_table_records_alias quietEnv sampleFile
    { generatedFileName := "svc".toList, protoName := "svc".toList,
      imports := [("a/x".toList, "$1".toList), ("b/y".toList, "$2".toList),
        ("a/z".toList, "$1".toList)],
      services := [⟨"Svc".toList, [], []⟩] }
    rfl [] ⟨"a/x.proto".toList, "pa".toList⟩
    [⟨"b/y.proto".toList, "pb".toList⟩, ⟨"a/z.proto".toList, "pa".toList⟩] rfl
  have hp1 : (Except.ok "a/x".toList : Except Str Str) = .ok p := hp
  injection hp1 with hp2
  subst hp2
  apply hrec
  intro later hl hlater
  simp only [List.mem_cons, List.mem_singleton, List.not_mem_nil, or_false] at hl
  rcases hl with rfl | rfl
  · have h1 : (Except.ok "b/y".toList : Except Str Str) = .ok "a/x".toList := hlater
    injection h1 with h2
    exact absurd h2 (by decide)
  · rfl

/-! ## Failure of the relative-path computation -/

theorem emittedPath_error_iff (E : Env) (filePath : Str) (imp : Import) (err : Str) :
    emittedPath E filePath imp = .error err ↔ E.rel filePath (E.dir imp.path) = .error err := by
  unfold emittedPath
  cases h : E.rel filePath (E.dir imp.path) with
  | error e => simp [h]
  | ok r => simp [h]

theorem importLoop_error_of_rel_error (E : Env) (filePath : Str) (imps : List Import)
    (hfail : ∃ imp ∈ imps, ∃ e, E.rel filePath (E.dir imp.path) = .error e) :
    ∀ (st : AliasState) (table : GoMap),
      ∃ err, importLoop E filePath imps st table = .error err ∧
        ∃ imp ∈ imps, E.rel filePath (E.dir imp.path) = .error err := by
  induction imps with
  | nil => obtain ⟨imp, hmem, _⟩ := hfail; simp at hmem
  | cons imp rest ih =>
    intro st table
    simp only [importLoop]
    cases hp : emittedPath E filePath imp with
    | error err =>
      exact ⟨err, rfl, imp, List.mem_cons_self _ _, (emittedPath_error_iff _ _ _ _).1 hp⟩
    | ok finalPath =>
      have hrest : ∃ imp ∈ rest, ∃ e, E.rel filePath (E.dir imp.path) = .error e := by
        obtain ⟨q, hq, e, he⟩ := hfail
        rcases List.mem_cons.1 hq with rfl | hq
        · have := (emittedPath_error_iff E filePath q e).2 he
          rw [hp] at this
          cases this
        · exact ⟨q, hq, e, he⟩
      obtain ⟨err, herr, q, hq, hqe⟩ := ih hrest (st.see imp.package)
        (table.set finalPath ((st.see imp.package).aliasOf imp.package))
      exact ⟨err, herr, q, List.mem_cons_of_mem _ hq, hqe⟩

/-- C8: if `filepath.Rel` fails for some import of the file, `generateFile` passes
the error, wrapped, to `gen.Error`, returns the error of `filepath.Rel`, and leaves
the plugin otherwise as it was: no generated file is created. -/
theorem generateFile_rel_error (E : Env) (gen : Plugin) (file : File)
    (hfail : ∃ imp ∈ file.imports, ∃ e,
      E.rel (E.dir file.descPath) (E.dir imp.path) = .error e) :
    ∃ err, (∃ imp ∈ file.imports,
        E.rel (E.dir file.descPath) (E.dir imp.path) = .error err) ∧
      (generateFile E gen file).2 = .error err ∧
      (generateFile E gen file).1.errors =
        gen.errors ++ ["error generating relative import path: ".toList ++ err] ∧
      (generateFile E gen file).1.generated = gen.generated ∧
      (generateFile E gen file).1.featuresSet = gen.featuresSet := by
  obtain ⟨err, herr, hwho⟩ :=
    importLoop_error_of_rel_error E (E.dir file.descPath) file.imports hfail AliasState.init []
  have hdata : buildData E file = .error err := by
    simp only [buildData, herr]
  refine ⟨err, hwho, ?_⟩
  have hgen : generateFile E gen file =
      (gen.error ("error generating relative import path: ".toList ++ err), .error err) := by
    simp only [generateFile, hdata]
  rw [hgen]
  exact ⟨rfl, rfl, rfl, rfl⟩

/-- C8 at `rootedImportFile`: the path `/abs` cannot be made relative to `.`, so the
call reports and returns an error and creates no file. -/
theorem generateFile_rel_error_witness :
    ∃ err, (∃ imp ∈ rootedImportFile.imports,
        quietEnv.rel (quietEnv.dir rootedImportFile.descPath) (quietEnv.dir imp.path) =
          .error err) ∧
      (generateFile quietEnv freshPlugin rootedImportFile).2 = .error err ∧
      (generateFile quietEnv freshPlugin rootedImportFile).1.errors =
        freshPlugin.errors ++ ["error generating relative import path: ".toList ++ err] ∧
      (generateFile quietEnv freshPlugin rootedImportFile).1.generated = freshPlugin.generated ∧
      (generateFile quietEnv freshPlugin rootedImportFile).1.featuresSet =
        freshPlugin.featuresSet :=
  generateFile_rel_error quietEnv freshPlugin rootedImportFile
    ⟨⟨"/abs/types.proto".toList, "abs".toList⟩, by decide,
      "Rel: can't make /abs relative to .".toList, rfl⟩

/-! ## `main`: which files are generated -/

theorem generateFile_generated (E : Env) (gen : Plugin) (f : File) :
    (generateFile E gen f).1.generated = gen.generated ∨
      ∃ text, (generateFile E gen f).1.generated =
        gen.generated ++ [⟨f.generatedFilenamePrefix ++ ".pbtwirp.dart".toList, text⟩] := by
  cases h1 : buildData E f with
  | error err => left; simp only [generateFile, h1]; rfl
  | ok data =>
    cases h2 : E.parseError with
    | some err => left; simp only [generateFile, h1, h2]; rfl
    | none =>
      right
      simp only [generateFile, h1, h2]
      split
      · exact ⟨_, rfl⟩
      · exact ⟨_, rfl⟩

theorem mainLoop_eq_foldl (E : Env) (files : List File) :
    ∀ gen, mainLoop E gen files =
      (files.filter eligible).foldl (fun g f => (generateFile E g f).1) gen := by
  induction files with
  | nil => intro gen; simp [mainLoop]
  | cons f fs ih =>
    intro gen
    by_cases he : eligible f = true
    · have hc : (!f.generate || f.services.length == 0) = false := by
        simp [eligible] at he
        simp [he]
      simp [mainLoop, hc, List.filter_cons, he, ih]
    · have hc : (!f.generate || f.services.length == 0) = true := by
        simp [eligible] at he
        by_cases hg : f.generate = true
        · simp [hg, he hg]
        · simp [hg]
      simp [mainLoop, hc, List.filter_cons, he, ih]

theorem mainLoop_generated (E : Env) (files : List File) :
    ∀ gen, ∀ g ∈ (mainLoop E gen files).generated,
      g ∈ gen.generated ∨ ∃ f ∈ files, eligible f = true ∧
        g.filename = f.generatedFilenamePrefix ++ ".pbtwirp.dart".toList := by
  induction files with
  | nil => intro gen g hg; left; simpa [mainLoop] using hg
  | cons f fs ih =>
    intro gen g hg
    by_cases he : eligible f = true
    · have hc : (!f.generate || f.services.length == 0) = false := by
        simp [eligible] at he
        simp [he]
      simp only [mainLoop, hc] at hg
      rcases ih _ g hg with h | ⟨f', hf', he', hn⟩
      · rcases generateFile_generated E gen f with h1 | ⟨text, h1⟩
        · left; rw [h1] at h; exact h
        · rw [h1] at h
          rcases List.mem_append.1 h with h | h
          · left; exact h
          · right
            refine ⟨f, List.mem_cons_self _ _, he, ?_⟩
            rw [List.mem_singleton.1 h]
      · right; exact ⟨f', List.mem_cons_of_mem _ hf', he', hn⟩
    · have hc : (!f.generate || f.services.length == 0) = true := by
        simp [eligible] at he
        by_cases hg : f.generate = true
        · simp [hg, he hg]
        · simp [hg]
      simp only [mainLoop, hc] at hg
      rcases ih _ g hg with h | ⟨f', hf', he', hn⟩
      · left; exact h
      · right; exact ⟨f', List.mem_cons_of_mem _ hf', he', hn⟩

theorem generateFile_generated_ok (E : Env) (gen : Plugin) (f : File) (data : TwirpFileData)
    (hdata : buildData E f = .ok data) (hparse : E.parseError = none) :
    (generateFile E gen f).1.generated =
      gen.generated ++
        [⟨f.generatedFilenamePrefix ++ ".pbtwirp.dart".toList, (E.execute data).1⟩] := by
  simp only [generateFile, hdata, hparse]
  split
  · rfl
  · rfl

theorem mainLoop_extends (E : Env) (files : List File) :
    ∀ gen, ∃ ext, (mainLoop E gen files).generated = gen.generated ++ ext := by
  induction files with
  | nil => intro gen; exact ⟨[], by simp [mainLoop]⟩
  | cons f fs ih =>
    intro gen
    by_cases hc : (!f.generate || f.services.length == 0) = true
    · simp only [mainLoop, hc, if_true]
      exact ih gen
    · have hc' : (!f.generate || f.services.length == 0) = false := Bool.eq_false_iff.2 hc
      simp only [mainLoop, hc', Bool.false_eq_true, if_false]
      obtain ⟨ext, hext⟩ := ih (generateFile E gen f).1
      rcases generateFile_generated E gen f with h1 | ⟨text, h1⟩
      · exact ⟨ext, by rw [hext, h1]⟩
      · exact ⟨_ :: ext, by rw [hext, h1, List.append_assoc]; rfl⟩

theorem mainLoop_contains (E : Env) (files : List File) :
    ∀ gen, ∀ f ∈ files, eligible f = true → ∀ data, buildData E f = .ok data →
      E.parseError = none →
      (⟨f.generatedFilenamePrefix ++ ".pbtwirp.dart".toList, (E.execute data).1⟩ :
        GeneratedFile) ∈ (mainLoop E gen files).generated := by
  induction files with
  | nil => intro gen f hf; simp at hf
  | cons f0 fs ih =>
    intro gen f hf he data hdata hparse
    rcases List.mem_cons.1 hf with hfe | hfs
    · subst hfe
      have hc : (!f.generate || f.services.length == 0) = false := by
        simp [eligible] at he
        simp [he]
      simp only [mainLoop, hc, Bool.false_eq_true, if_false]
      obtain ⟨ext, hext⟩ := mainLoop_extends E fs (generateFile E gen f).1
      rw [hext, generateFile_generated_ok E gen f data hdata hparse]
      simp
    · by_cases hc : (!f0.generate || f0.services.length == 0) = true
      · simp only [mainLoop, hc, if_true]
        exact ih gen f hfs he data hdata hparse
      · have hc' : (!f0.generate || f0.services.length == 0) = false :=
          Bool.eq_false_iff.2 hc
        simp only [mainLoop, hc', Bool.false_eq_true, if_false]
        exact ih _ f hfs he data hdata hparse

/-- C9: for every list of input files, (1) the plugin left by the callback of
`main` is the one obtained by calling `generateFile`, in input order, on exactly
the files that are flagged for generation and declare at least one service, with
`SupportedFeatures` set afterwards, and the loop of `main` alone is that sequence
of calls; (2) every generated file present afterwards was there before or is the
output unit `<prefix>.pbtwirp.dart` of such a file, so a file that is not flagged
or declares no service adds none; (3) when no input file is flagged and has a
service, the run creates no generated file and reports no error; (4) every file
that is flagged, declares a service and for which import resolution and the
parsing of the template succeed has its output unit among the generated files. -/
theorem main_generates_eligible_files (E : Env) (gen : Plugin) (files : List File) :
    (run E gen files =
        { (files.filter fun f => f.generate && f.services.length != 0).foldl
            (fun g f => (generateFile E g f).1) gen with featuresSet := true } ∧
      mainLoop E gen files =
        (files.filter fun f => f.generate && f.services.length != 0).foldl
          (fun g f => (generateFile E g f).1) gen) ∧
      (∀ g ∈ (run E gen files).generated,
        g ∈ gen.generated ∨ ∃ f ∈ files, f.generate = true ∧ f.services ≠ [] ∧
          g.filename = f.generatedFilenamePrefix ++ ".pbtwirp.dart".toList) ∧
      ((∀ f ∈ files, f.generate = false ∨ f.services = []) →
        run E gen files = { gen with featuresSet := true }) ∧
      (∀ f ∈ files, f.generate = true → f.services ≠ [] →
        ∀ data, buildData E f = .ok data → E.parseError = none →
          (⟨f.generatedFilenamePrefix ++ ".pbtwirp.dart".toList, (E.execute data).1⟩ :
            GeneratedFile) ∈ (run E gen files).generated) := by
  have hloop := mainLoop_eq_foldl E files gen
  refine ⟨⟨?_, hloop⟩, ?_, ?_, ?_⟩
  · show ({ mainLoop E gen files with featuresSet := true } : Plugin) = _
    rw [hloop]
    rfl
  · intro g hg
    rcases mainLoop_generated E files gen g (by simpa [run] using hg) with h | ⟨f, hf, he, hn⟩
    · left; exact h
    · right
      refine ⟨f, hf, ?_, ?_, hn⟩
      · simp [eligible] at he
        exact he.1
      · simp [eligible] at he
        exact he.2
  · intro hall
    have hnone : files.filter eligible = [] := by
      rw [List.filter_eq_nil_iff]
      intro f hf
      rcases hall f hf with h | h
      · simp [eligible, h]
      · simp [eligible, h]
    simp [run, mainLoop_eq_foldl, hnone]
  · intro f hf hg hs data hdata hparse
    have he : eligible f = true := by
      simp [eligible, hg, hs]
    exact mainLoop_contains E files gen f hf he data hdata hparse

/-! ## Construction of a generated client -/

theorem newClient_fields (t : Transport) (baseUrl pfx : Str) :
    (newClient t baseUrl pfx).transport = t ∧
    (newClient t baseUrl pfx).baseUrl =
      (if !endsWithSlash baseUrl then baseUrl ++ ['/'] else baseUrl) ∧
    (newClient t baseUrl pfx).pfx =
      (if startsWithSlash (if !endsWithSlash pfx then pfx ++ ['/'] else pfx)
        then (if !endsWithSlash pfx then pfx ++ ['/'] else pfx).drop 1
        else (if !endsWithSlash pfx then pfx ++ ['/'] else pfx)) := by
  cases t <;> exact ⟨rfl, rfl, rfl⟩

theorem endsWithSlash_append_slash (s : Str) : endsWithSlash (s ++ ['/']) = true := by
  simp [endsWithSlash]

theorem endsWithSlash_cons (c d : Char) (s : Str) :
    endsWithSlash (c :: d :: s) = endsWithSlash (d :: s) := by
  simp [endsWithSlash, List.getLast?_cons_cons]

theorem endsWithSlash_padded (pfx : Str) : endsWithSlash (padded pfx) = true := by
  unfold padded
  cases h : endsWithSlash pfx with
  | true => simp [h]
  | false => simp [endsWithSlash_append_slash]

theorem padded_of_ends {s : Str} (h : endsWithSlash s = true) : padded s = s := by
  simp [padded, h]

theorem padded_cons_cons (c d : Char) (s : Str) :
    padded (c :: d :: s) = c :: padded (d :: s) := by
  unfold padded
  rw [endsWithSlash_cons]
  cases endsWithSlash (d :: s) <;> simp

/-- The stored prefix as a function of the given one. -/
theorem newClient_pfx (t : Transport) (baseUrl pfx : Str) :
    (newClient t baseUrl pfx).pfx =
      if startsWithSlash (padded pfx) then (padded pfx).drop 1 else padded pfx :=
  (newClient_fields t baseUrl pfx).2.2

theorem newClient_pfx_nil (t : Transport) (baseUrl : Str) :
    (newClient t baseUrl []).pfx = [] := by
  cases t <;> rfl

theorem newClient_pfx_slash (t : Transport) (baseUrl : Str) :
    (newClient t baseUrl ['/']).pfx = [] := by
  cases t <;> rfl

theorem newClient_pfx_slash_cons (t : Transport) (baseUrl : Str) (d : Char) (s : Str) :
    (newClient t baseUrl ('/' :: d :: s)).pfx = padded (d :: s) := by
  rw [newClient_pfx, padded_cons_cons]
  simp [startsWithSlash]

theorem newClient_pfx_other (t : Transport) (baseUrl : Str) (c : Char) (s : Str)
    (hc : c ≠ '/') : (newClient t baseUrl (c :: s)).pfx = padded (c :: s) := by
  rw [newClient_pfx]
  cases s with
  | nil =>
    have : padded [c] = [c, '/'] := by simp [padded, endsWithSlash, hc]
    simp [this, startsWithSlash, hc]
  | cons d s =>
    rw [padded_cons_cons]
    simp [startsWithSlash, hc]

theorem padded_ne_nil (s : Str) : padded s ≠ [] := by
  intro h
  have := endsWithSlash_padded s
  rw [h] at this
  simp [endsWithSlash] at this

theorem padded_head (d : Char) (s : Str) : (padded (d :: s)).head? = some d := by
  unfold padded
  cases endsWithSlash (d :: s) <;> simp

theorem newClient_baseUrl (t : Transport) (baseUrl pfx : Str) :
    (newClient t baseUrl pfx).baseUrl = padded baseUrl :=
  (newClient_fields t baseUrl pfx).2.1

theorem client_normalized_aux (t : Transport) (baseUrl pfx : Str) :
    ((newClient t baseUrl pfx).pfx = [] ∨ endsWithSlash (newClient t baseUrl pfx).pfx = true) ∧
    ((newClient t baseUrl pfx).pfx = [] ↔ pfx = [] ∨ pfx = ['/']) ∧
    (startsWithSlash (newClient t baseUrl pfx).pfx = true ↔
      ∃ rest, pfx = '/' :: '/' :: rest) := by
  cases pfx with
  | nil =>
    rw [newClient_pfx_nil]
    simp [startsWithSlash]
  | cons c s =>
    by_cases hc : c = '/'
    · subst hc
      cases s with
      | nil =>
        rw [newClient_pfx_slash]
        simp [startsWithSlash]
      | cons d s =>
        rw [newClient_pfx_slash_cons]
        refine ⟨Or.inr (endsWithSlash_padded _), ?_, ?_⟩
        · simp [padded_ne_nil]
        · simp only [startsWithSlash, padded_head]
          constructor
          · intro h
            have hd : d = '/' := by simpa using h
            exact ⟨s, by rw [hd]⟩
          · rintro ⟨rest, h⟩
            have hd : d = '/' := by
              injection h with _ h2
              injection h2 with h3 _
            simp [hd]
    · rw [newClient_pfx_other t baseUrl c s hc]
      refine ⟨Or.inr (endsWithSlash_padded _), ?_, ?_⟩
      · simp [padded_ne_nil, hc]
      · simp only [startsWithSlash, padded_head]
        constructor
        · intro h
          have : c = '/' := by simpa using h
          exact absurd this hc
        · rintro ⟨rest, h⟩
          injection h with h1 _
          exact absurd h1 hc

/-- C4, as stated, fails: constructed with the prefix `""` a client stores the
prefix `""`, which does not end with `/`; constructed with the prefix `//rpc` it
stores `/rpc/`, which begins with `/`.  Both variants behave so. -/
theorem client_prefix_not_normalized :
    (newClient .json "http://x".toList []).pfx = [] ∧
      endsWithSlash (newClient .json "http://x".toList []).pfx = false ∧
      (newClient .protobuf "http://x".toList []).pfx = [] ∧
      (newClient .json "http://x".toList "//rpc".toList).pfx = "/rpc/".toList ∧
      startsWithSlash (newClient .json "http://x".toList "//rpc".toList).pfx = true ∧
      (newClient .protobuf "http://x".toList "//rpc".toList).pfx = "/rpc/".toList := by
  decide

/-- C4, amended: for every base URL and prefix passed to the constructor of either
variant, the stored base URL ends with `/`; the stored prefix is empty or ends
with `/`, and it is empty exactly when the given prefix is `""` or `"/"`; the
stored prefix begins with `/` exactly when the given prefix begins with `//`. -/
theorem client_normalized (t : Transport) (baseUrl pfx : Str) :
    endsWithSlash (newClient t baseUrl pfx).baseUrl = true ∧
    ((newClient t baseUrl pfx).pfx = [] ∨ endsWithSlash (newClient t baseUrl pfx).pfx = true) ∧
    ((newClient t baseUrl pfx).pfx = [] ↔ pfx = [] ∨ pfx = ['/']) ∧
    (startsWithSlash (newClient t baseUrl pfx).pfx = true ↔
      ∃ rest, pfx = '/' :: '/' :: rest) := by
  refine ⟨?_, client_normalized_aux t baseUrl pfx⟩
  rw [newClient_baseUrl]
  exact endsWithSlash_padded _

/-- C5, as stated, fails: a client constructed with the prefix `//rpc` stores
`/rpc/`, and a client constructed from the stored values stores `rpc/`. -/
theorem client_construction_not_idempotent :
    (newClient .json "http://x".toList "//rpc".toList).baseUrl = "http://x/".toList ∧
      (newClient .json "http://x".toList "//rpc".toList).pfx = "/rpc/".toList ∧
      (newClient .json (newClient .json "http://x".toList "//rpc".toList).baseUrl
        (newClient .json "http://x".toList "//rpc".toList).pfx).pfx = "rpc/".toList := by
  decide

/-- C5, amended: for every base URL and prefix, constructing a client from the
values a first construction stored yields the same stored base URL, and the same
stored prefix exactly when the given prefix does not begin with `//`; and
`("http://x", "/rpc")` and `("http://x/", "rpc/")` yield the same client, whose
base URL followed by its prefix is `http://x/rpc/`. -/
theorem client_construction_idempotent (t : Transport) (baseUrl pfx : Str) :
    (newClient t (newClient t baseUrl pfx).baseUrl (newClient t baseUrl pfx).pfx).baseUrl =
        (newClient t baseUrl pfx).baseUrl ∧
      ((newClient t (newClient t baseUrl pfx).baseUrl (newClient t baseUrl pfx).pfx).pfx =
          (newClient t baseUrl pfx).pfx ↔ ¬ ∃ rest, pfx = '/' :: '/' :: rest) ∧
      ((¬ ∃ rest, pfx = '/' :: '/' :: rest) →
        newClient t (newClient t baseUrl pfx).baseUrl (newClient t baseUrl pfx).pfx =
          newClient t baseUrl pfx) ∧
      newClient t "http://x".toList "/rpc".toList = newClient t "http://x/".toList "rpc/".toList ∧
      (newClient t "http://x".toList "/rpc".toList).baseUrl ++
        (newClient t "http://x".toList "/rpc".toList).pfx = "http://x/rpc/".toList := by
  obtain ⟨hends, hnil, hstart⟩ := client_normalized_aux t baseUrl pfx
  have hbase :
      (newClient t (newClient t baseUrl pfx).baseUrl (newClient t baseUrl pfx).pfx).baseUrl =
        (newClient t baseUrl pfx).baseUrl := by
    rw [newClient_baseUrl, newClient_baseUrl, padded_of_ends (endsWithSlash_padded _)]
  have hpfx : (newClient t (newClient t baseUrl pfx).baseUrl (newClient t baseUrl pfx).pfx).pfx =
      (newClient t baseUrl pfx).pfx ↔ ¬ ∃ rest, pfx = '/' :: '/' :: rest := by
    rw [← hstart]
    generalize (newClient t baseUrl pfx).baseUrl = b at *
    generalize (newClient t baseUrl pfx).pfx = q at *
    rcases hends with hq | hq
    · subst hq
      rw [newClient_pfx_nil]
      simp [startsWithSlash]
    · rw [newClient_pfx, padded_of_ends hq]
      cases hs : startsWithSlash q with
      | false => simp
      | true =>
        simp only [if_true, not_true_eq_false, iff_false]
        intro h
        have hlen := congrArg List.length h
        cases q with
        | nil => simp [startsWithSlash] at hs
        | cons c r => simp at hlen
  refine ⟨hbase, hpfx, ?_, ?_, ?_⟩
  · intro h
    have h1 := hpfx.2 h
    have h0 : (newClient t (newClient t baseUrl pfx).baseUrl
        (newClient t baseUrl pfx).pfx).transport = (newClient t baseUrl pfx).transport := by
      rw [(newClient_fields _ _ _).1, (newClient_fields _ _ _).1]
    generalize newClient t (newClient t baseUrl pfx).baseUrl (newClient t baseUrl pfx).pfx = c2 at *
    generalize newClient t baseUrl pfx = c1 at *
    cases c1
    cases c2
    simp_all
  · cases t <;> decide
  · cases t <;> decide

/-! ## The import string of one import -/

/-- C2 at the import `common.protos/types.proto` of the file `svc.proto`:
`generateFile` emits `commons/types`, since `strings.ReplaceAll` also removes the
`.proto` inside the directory name, while the path of the imported file relative to
the directory of `svc.proto`, with the trailing `.proto` dropped, is
`common.protos/types`. -/
theorem emittedPath_strips_inner_proto :
    emittedPath quietEnv (dir "svc.proto".toList)
        ⟨"common.protos/types.proto".toList, "common".toList⟩ = .ok "commons/types".toList ∧
      expectedImportPath quietEnv (dir "svc.proto".toList)
        ⟨"common.protos/types.proto".toList, "common".toList⟩ =
          .ok "common.protos/types".toList :=
  ⟨rfl, rfl⟩

/-! ## The context and the URL of a generated client method -/

/-- C6 at `haberdasherFile`: in both variants the method `MakeHat` adds to the
context the package name, the service name and the method name in that order, but
the package name it adds is `haberdasher`, the last segment of the package, while
the route of its URL starts with the whole package `twirp.example.haberdasher`, as
in the URL requested by a client constructed with `http://x` and `/twirp`. -/
theorem methodContext_package_last_segment :
    (methodContext .json haberdasherFile ⟨"Haberdasher".toList, [], []⟩
        ⟨"MakeHat".toList, "Size".toList, "Hat".toList, []⟩ ⟨[], []⟩).values =
        [(.packageName, "haberdasher".toList), (.serviceName, "Haberdasher".toList),
          (.methodName, "MakeHat".toList)] ∧
      (methodContext .protobuf haberdasherFile ⟨"Haberdasher".toList, [], []⟩
        ⟨"MakeHat".toList, "Size".toList, "Hat".toList, []⟩ ⟨[], []⟩).values =
        [(.packageName, "haberdasher".toList), (.serviceName, "Haberdasher".toList),
          (.methodName, "MakeHat".toList)] ∧
      methodRoute .json haberdasherFile ⟨"Haberdasher".toList, [], []⟩
        ⟨"MakeHat".toList, "Size".toList, "Hat".toList, []⟩ =
        "twirp.example.haberdasher.Haberdasher/MakeHat".toList ∧
      methodRoute .protobuf haberdasherFile ⟨"Haberdasher".toList, [], []⟩
        ⟨"MakeHat".toList, "Size".toList, "Hat".toList, []⟩ =
        "twirp.example.haberdasher.Haberdasher/MakeHat".toList ∧
      requestUrl (newClient .json "http://x".toList "/twirp".toList) haberdasherFile
        ⟨"Haberdasher".toList, [], []⟩ ⟨"MakeHat".toList, "Size".toList, "Hat".toList, []⟩ =
        "http://x/twirp/twirp.example.haberdasher.Haberdasher/MakeHat".toList := by
  decide

/-! ## `lowerFirstLetter` -/

/-- C10: for every non-empty name `s = b :: rest` whose first byte is ASCII (as in
every method name, an identifier of letters, digits and underscores),
`lowerFirstLetter` returns `s` with the first byte lower-cased and the bytes after
it unchanged: the result has the length of `s` and the tail of `s`, and it is `s`
itself when `b` is a lower-case letter. -/
theorem lowerFirstLetter_ascii (b : Nat) (rest : List Nat) (hb : b < 128) :
    lowerFirstLetter (b :: rest) = some ((if 65 ≤ b ∧ b ≤ 90 then b + 32 else b) :: rest) ∧
    (∀ r, lowerFirstLetter (b :: rest) = some r →
      r.length = (b :: rest).length ∧ r.tail = (b :: rest).tail) ∧
    (97 ≤ b ∧ b ≤ 122 → lowerFirstLetter (b :: rest) = some (b :: rest)) := by
  have hlow : toLowerRune b = if 65 ≤ b ∧ b ≤ 90 then b + 32 else b := by
    unfold toLowerRune
    by_cases h : 65 ≤ b ∧ b ≤ 90
    · rw [if_pos (Or.inl h), if_pos h]
    · have h2 : ¬ ((65 ≤ b ∧ b ≤ 90) ∨ (192 ≤ b ∧ b ≤ 222 ∧ b ≠ 215)) := by
        omega
      rw [if_neg h2, if_neg h]
  have hlt : (if 65 ≤ b ∧ b ≤ 90 then b + 32 else b) < 128 := by
    split <;> omega
  have hres : lowerFirstLetter (b :: rest) =
      some ((if 65 ≤ b ∧ b ≤ 90 then b + 32 else b) :: rest) := by
    simp only [lowerFirstLetter, hlow, utf8Rune, hlt, if_true, List.singleton_append]
  refine ⟨hres, ?_, ?_⟩
  · intro r hr
    rw [hres] at hr
    injection hr with hr
    rw [← hr]
    simp
  · intro h
    rw [hres]
    have : ¬ (65 ≤ b ∧ b ≤ 90) := by omega
    simp [this]

/-- A first byte outside ASCII, which no identifier has, is read as a code point
and written back as two bytes: `É` (bytes `C3 89`) becomes `C3 A3 89`. -/
theorem lowerFirstLetter_first_byte_non_ascii :
    lowerFirstLetter [195, 137] = some [195, 163, 137] := by
  decide

/-- C10 at the name `MakeHat`: the result is `makeHat`. -/
theorem lowerFirstLetter_ascii_witness :
    lowerFirstLetter [77, 97, 107, 101, 72, 97, 116] = some [109, 97, 107, 101, 72, 97, 116] :=
  (lowerFirstLetter_ascii 77 [97, 107, 101, 72, 97, 116] (by decide)).1

/-! ## `createRequest` -/

theorem KeyEquiv.flip_false {keq : Str → Str → Bool} (hk : KeyEquiv keq) {a b : Str}
    (h : keq a b = false) : keq b a = false := by
  cases hba : keq b a with
  | false => rfl
  | true =>
    have := hk.symm b a hba
    rw [h] at this
    exact absurd this (by decide)

theorem ciEq_keyEquiv : KeyEquiv ciEq where
  refl := by intro a; simp [ciEq]
  symm := by intro a b h; simp only [ciEq, decide_eq_true_eq] at h ⊢; exact h.symm
  trans := by
    intro a b c h1 h2
    simp only [ciEq, decide_eq_true_eq] at h1 h2 ⊢
    exact h1.trans h2

theorem mapGet_mapSet_same_name {keq : Str → Str → Bool} (hk : KeyEquiv keq) {k j : Str}
    (h : keq k j = true) (v : Str) (m : List (Str × Str)) :
    mapGet keq j (mapSet keq k v m) = some v := by
  induction m with
  | nil => simp [mapSet, mapGet, h]
  | cons e rest ih =>
    obtain ⟨k', v'⟩ := e
    by_cases hk' : keq k' k = true
    · have hj : keq k' j = true := hk.trans k' k j hk' h
      simp [mapSet, mapGet, hk', hj]
    · have hj : keq k' j = false := by
        cases hkj : keq k' j with
        | false => rfl
        | true => exact absurd (hk.trans k' j k hkj (hk.symm k j h)) hk'
      simp [mapSet, mapGet, hk', hj, ih]

/-- After `addAll`, a name has the value of the last added entry of that name, or
its earlier value when no added entry has that name. -/
theorem mapGet_addAll {keq : Str → Str → Bool} (hk : KeyEquiv keq) (k : Str)
    (hs : List (Str × Str)) :
    ∀ acc : List (Str × Str),
      mapGet keq k (mapAddAll keq acc hs) =
        match hs.reverse.find? (fun e => keq e.1 k) with
        | some e => some e.2
        | none => mapGet keq k acc := by
  induction hs with
  | nil => intro acc; rfl
  | cons e rest ih =>
    intro acc
    have hstep : mapAddAll keq acc (e :: rest) = mapAddAll keq (mapSet keq e.1 e.2 acc) rest :=
      rfl
    rw [hstep, ih, List.reverse_cons, List.find?_append]
    cases hfind : rest.reverse.find? (fun e => keq e.1 k) with
    | some e' => rfl
    | none =>
      cases he : keq e.1 k with
      | true =>
        simp only [Option.none_or, List.find?_cons, he, List.find?_nil]
        exact mapGet_mapSet_same_name hk he e.2 acc
      | false =>
        simp only [Option.none_or, List.find?_cons, he, List.find?_nil]
        exact mapGet_mapSet_other hk he e.2 acc

/-- C7, as stated, fails: header names being compared without regard to case, as
the `headers` map of the request compares them, the context `twoCaseContext`
supplies the header `X-Trace` with value `one`, a name other than `Accept` and
`Content-Type`, and the request built by `createRequest` holds `two` under that
name: its headers are `X-Trace: two`, `Accept` and `Content-Type`. -/
theorem createRequest_drops_context_value :
    twoCaseContext.headers =
        [("X-Trace".toList, "one".toList), ("x-trace".toList, "two".toList)] ∧
      strEq "X-Trace".toList "x-trace".toList = false ∧
      ciEq "X-Trace".toList acceptHeader = false ∧
      ciEq "X-Trace".toList contentTypeHeader = false ∧
      mapGet ciEq "X-Trace".toList (createRequest ciEq "http://x/rpc/demo.Svc/Get".toList
        twoCaseContext (mediaType .json)).headers = some "two".toList ∧
      (createRequest ciEq "http://x/rpc/demo.Svc/Get".toList twoCaseContext
        (mediaType .json)).headers =
        [("X-Trace".toList, "two".toList), ("Accept".toList, "application/json".toList),
          ("Content-Type".toList, "application/json".toList)] := by
  decide

/-- C7, amended: for every comparison `keq` of header names that is an equivalence
and tells `Accept` from `Content-Type` (the comparison without regard to case of
the request's header map is one), every URL, every context and every media type
`m`, the request built by `createRequest` is a `POST` to the URL; its `Accept` and
`Content-Type` headers are both `m`, whatever the context supplies under these
names; under every other name the request holds the value of the last header of
the context with that name, and none when the context has no such header; so a
header of the context with another name is on the request with its context value
when every header of the context with the same name carries that value, as when
no other header of the context has that name. -/
theorem createRequest_headers (keq : Str → Str → Bool) (hk : KeyEquiv keq)
    (hsep : keq acceptHeader contentTypeHeader = false)
    (url : Str) (ctx : Context) (m : Str) :
    (createRequest keq url ctx m).method = "POST".toList ∧
    (createRequest keq url ctx m).url = url ∧
    mapGet keq acceptHeader (createRequest keq url ctx m).headers = some m ∧
    mapGet keq contentTypeHeader (createRequest keq url ctx m).headers = some m ∧
    (∀ k, keq k acceptHeader = false → keq k contentTypeHeader = false →
      mapGet keq k (createRequest keq url ctx m).headers =
        ((retrieveHttpRequestHeaders ctx).reverse.find? (fun e => keq e.1 k)).map Prod.snd) ∧
    (∀ k v, (k, v) ∈ retrieveHttpRequestHeaders ctx → keq k acceptHeader = false →
      keq k contentTypeHeader = false →
      (∀ e ∈ retrieveHttpRequestHeaders ctx, keq e.1 k = true → e.2 = v) →
      mapGet keq k (createRequest keq url ctx m).headers = some v) := by
  have hheaders : (createRequest keq url ctx m).headers =
      mapSet keq contentTypeHeader m
        (mapSet keq acceptHeader m (mapAddAll keq [] ctx.headers)) := rfl
  have hother : ∀ k, keq k acceptHeader = false → keq k contentTypeHeader = false →
      mapGet keq k (createRequest keq url ctx m).headers =
        (ctx.headers.reverse.find? (fun e => keq e.1 k)).map Prod.snd := by
    intro k ha hc
    rw [hheaders, mapGet_mapSet_other hk (hk.flip_false hc),
      mapGet_mapSet_other hk (hk.flip_false ha), mapGet_addAll hk]
    cases ctx.headers.reverse.find? (fun e => keq e.1 k) with
    | some e => rfl
    | none => rfl
  refine ⟨rfl, rfl, ?_, ?_, hother, ?_⟩
  · rw [hheaders, mapGet_mapSet_other hk (hk.flip_false hsep)]
    exact mapGet_mapSet_self hk.refl _ _ _
  · rw [hheaders]
    exact mapGet_mapSet_self hk.refl _ _ _
  · intro k v hmem ha hc hsame
    rw [hother k ha hc]
    have hmem' : (k, v) ∈ ctx.headers := hmem
    cases hfind : ctx.headers.reverse.find? (fun e => keq e.1 k) with
    | none =>
      have hnone := List.find?_eq_none.1 hfind (k, v) (List.mem_reverse.2 hmem')
      simp [hk.refl k] at hnone
    | some e =>
      have hp : keq e.1 k = true := by simpa using List.find?_some hfind
      have he : e ∈ ctx.headers := List.mem_reverse.1 (List.mem_of_find?_eq_some hfind)
      simp [hsame e he hp]

/-- C7, amended, at `sampleContext`, with header names compared without regard to
case and the media type of the JSON variant: `Accept` is `application/json`, not
the `text/plain` of the context, and `X-Trace` keeps its context value. -/
theorem createRequest_headers_witness :
    (createRequest ciEq "http://x/rpc/demo.Svc/Get".toList sampleContext
        (mediaType .json)).method = "POST".toList ∧
      mapGet ciEq acceptHeader (createRequest ciEq "http://x/rpc/demo.Svc/Get".toList
        sampleContext (mediaType .json)).headers = some "application/json".toList ∧
      mapGet ciEq contentTypeHeader (createRequest ciEq "http://x/rpc/demo.Svc/Get".toList
        sampleContext (mediaType .json)).headers = some "application/json".toList ∧
      mapGet ciEq "X-Trace".toList (createRequest ciEq "http://x/rpc/demo.Svc/Get".toList
        sampleContext (mediaType .json)).headers = some "abc".toList :=
  have h := createRequest_headers ciEq ciEq_keyEquiv (by decide)
    "http://x/rpc/demo.Svc/Get".toList sampleContext (mediaType .json)
  ⟨h.1, h.2.2.1, h.2.2.2.1, h.2.2.2.2.2 "X-Trace".toList "abc".toList (by decide) (by decide)
    (by decide) (by decide)⟩

end Tart
